import Mathlib

/-!
Shallow embedding of the two sketch cores of this repository:

* the blocked Bloom filter `bfbase_t` of `src/include/sketch/bf.h`, and
* the Set-Sketch LSH index `SetSketchIndex` of `src/include/sketch/ssi.h`.

Modelling conventions:

* 64-bit machine words (`uint64_t`) are `Nat` values; wherever C++ overflow or a
  narrowing cast matters the embedding takes `% 2 ^ 64` or `% 256` explicitly.
* The word array `core_` and the seed array `seeds_` are `List Nat`.
* The SIMD word loops of the source (`Space::or_fn`, `popcnt_fn`, ...) are
  embedded at their scalar semantics (`Space::COUNT = 1`); per the spec the
  correctness properties do not depend on the vector width.
* The hash functor template parameter `HashStruct` is modelled as the spec's
  capability: a pure digest `hf : Nat → Nat` passed to the operations that hash,
  plus an opaque fixed-size state blob `hf_ : List Nat` (its bytes) carried in
  the filter state for serialization.
* `std::mt19937_64`, used only by `reseed`, is an external library component;
  it is modelled as a deterministic per-seed output stream
  `mtw : Nat → Nat → Nat` (`mtw seed i` is the i-th draw), and the
  duplicate-rejecting `while` loop of `reseed` is given explicit fuel.
* Code that reads out of bounds (an unconditional first-word load on an empty
  array, or consuming more seeds than exist) is modelled with `Option`:
  `none` marks the execution the C++ source does not define.
-/

/-- Popcount of a 64-bit word (the scalar semantics of `popcnt_fn`). -/
def popc (w : Nat) : Nat := (List.range 64).countP (fun i => w.testBit i)

/-- Modelled from the spec: `lut::nhashesper64bitword` lives in `common.h`,
which is not part of `src/`; the spec fixes `nhashesper64bitword(p) = floor(64 / p)`. -/
def nhashesper64bitword (p : Nat) : Nat := 64 / p

/-- Fuelled floor-log2 helper; fuel 64 covers the whole `size_t` domain. -/
def ilog2Aux : Nat → Nat → Nat
| 0, _ => 0
| fuel+1, n => if 2 ≤ n then ilog2Aux fuel (n / 2) + 1 else 0

/-- Modelled from the spec: `ilog2` lives in `common.h`, which is not part of
`src/`; it is the floor of log2 of a 64-bit value. -/
def ilog2 (n : Nat) : Nat := ilog2Aux 64 n

/-- Modelled from the spec: `roundup` lives in `common.h`, which is not part of
`src/`; it rounds a 64-bit value up to the next power of two. -/
def roundup (n : Nat) : Nat := if n ≤ 1 then n else 2 ^ (ilog2 (n - 1) + 1)

/-- Error signals of the Bloom filter (`throw std::runtime_error` sites). -/
inductive BFErr where
| oversize
| tooManySeeds
| sizeMismatch
deriving DecidableEq

/-- Observable state of `bfbase_t`: the attributes of the class
(`np_`, `nh_`, `hf_`, `core_`, `seeds_`, `seedseed_`, `mask_`).
`hf_` is the opaque byte blob of the hash functor's state. -/
structure BFState where
  np_ : Nat
  nh_ : Nat
  hf_ : List Nat
  core_ : List Nat
  seeds_ : List Nat
  seedseed_ : Nat
  mask_ : Nat

/-- `m()`: table size in bits, `core_.size() << 6`. -/
def bfm (st : BFState) : Nat := st.core_.length <<< 6

/-- `isOk` discriminator for `Except` results. -/
def exceptIsOk {e a : Type} : Except e a → Bool
| .ok _ => true
| .error _ => false

/-- The `while` loop of `reseed`: draw from the PRNG stream, reject duplicates,
stop once `seeds_.size() * nperhash64 >= nh_`. `fuel` bounds the iterations of
the (source-side unbounded) loop; every theorem below only meets states where
the loop exits at once, so its value never matters there. -/
def reseedLoop (stream : Nat → Nat) (npw nh : Nat) : Nat → Nat → List Nat → List Nat
| _, 0, seeds => seeds
| idx, fuel+1, seeds =>
  if seeds.length * npw < nh then
    reseedLoop stream npw nh (idx+1) fuel
      (if stream idx ∈ seeds then seeds else seeds ++ [stream idx])
  else seeds

/-- `reseed()` (the default-argument call used by `resize`): seeds the PRNG from
`seedseed_` and extends `seeds_` until `seeds_.size() * nhashesper64bitword[p()] ≥ nh_`. -/
def reseed (mtw : Nat → Nat → Nat) (fuel : Nat) (st : BFState) : BFState :=
  { st with seeds_ :=
      reseedLoop (mtw st.seedseed_) (nhashesper64bitword (st.np_ + 6)) st.nh_ 0 fuel st.seeds_ }

/-- `resize(new_size)`: round up to a power of two, clear, resize the word
array, recompute `np_` (`size_t(ilog2(new_size)) - OFFSET`, truncated to
`uint8_t`), reseed, set `mask_ = new_size - 1`. The body contains no `throw`. -/
def bfresize (mtw : Nat → Nat → Nat) (fuel : Nat) (st : BFState) (new_size : Nat) : BFState :=
  let ns := roundup new_size
  let st1 : BFState := { st with
    core_ := List.replicate (ns >>> 6) 0,
    np_ := ((ilog2 ns + (2 ^ 64 - 6)) % 2 ^ 64) % 256 }
  let st2 := reseed mtw fuel st1
  { st2 with mask_ := (ns + (2 ^ 64 - 1)) % 2 ^ 64 }

/-- `resize` wrapped in `Except`, to state the spec's `Oversize` claim about it:
the source body of `resize` contains no size check and no throw at all, so the
wrapper is always `ok`. -/
def bfresizeE (mtw : Nat → Nat → Nat) (fuel : Nat) (st : BFState) (new_size : Nat) :
    Except BFErr BFState := .ok (bfresize mtw fuel st new_size)

/-- The `(l2sz, nhashes, seedval)` constructor: `np_ = l2sz > 6 ? l2sz - 6 : 0`
(a `uint8_t`), throw `Oversize` when `np_ > 40`, then `resize(1 << p())` when
`np_` is nonzero. `hfb` is the constructed hash functor's state blob; `mask_`
is left uninitialized by the source when `np_ = 0` and modelled as 0. -/
def bfbase_new (mtw : Nat → Nat → Nat) (fuel : Nat) (l2sz nhashes seedval : Nat)
    (hfb : List Nat) : Except BFErr BFState :=
  let np := if 6 < l2sz then (l2sz - 6) % 256 else 0
  if 40 < np then .error .oversize
  else
    let st : BFState := { np_ := np, nh_ := nhashes % 256, hf_ := hfb,
                          core_ := [], seeds_ := [], seedseed_ := seedval % 2 ^ 64, mask_ := 0 }
    if np ≠ 0 then .ok (bfresize mtw fuel st (2 ^ (np + 6))) else .ok st

/-- `popcnt()`: loads the first word unconditionally (`popcnt_fn(*op++)`) and
then loops; on an empty word array that first load reads past the storage, so
the empty case is `none`. -/
def bfpopcnt (st : BFState) : Option Nat :=
  match st.core_ with
  | [] => none
  | w :: ws => some (ws.foldl (fun acc b => acc + popc b) (popc w))

/-- The sequential OR-fold loop shared by both branches of `halve()`:
`core[i] |= core[size/2 + i]`, one write per iteration. -/
def halveLoop : Nat → Nat → Nat → List Nat → List Nat
| _, _, 0, ws => ws
| i, hi, c+1, ws => halveLoop (i+1) (hi+1) c (ws.set i ((ws.getD i 0) ||| (ws.getD hi 0)))

/-- Both `halve()` loops run `size - size/2` iterations starting the upper
cursor at `size/2`. -/
def halveFold (ws : List Nat) : List Nat :=
  halveLoop 0 (ws.length >>> 1) (ws.length - (ws.length >>> 1)) ws

/-- `halve()`: for `np_ < 17` the scalar loop OR-folds and returns immediately
(no storage change, no `np_` change); otherwise the vector loop OR-folds and
`core_` is resized to half. Neither branch touches `np_` or `mask_`. -/
def bfhalve (st : BFState) : BFState :=
  if st.np_ < 17 then { st with core_ := halveFold st.core_ }
  else { st with core_ := (halveFold st.core_).take (st.core_.length >>> 1) }

/-- `same_params(other)`: `tie(np_, nh_, seedseed_)` equality. -/
def same_params (a b : BFState) : Bool :=
  a.np_ == b.np_ && a.nh_ == b.nh_ && a.seedseed_ == b.seedseed_

/-- The copy-assignment `operator=`: copies `core_`, `np_`, `nh_`, `seedseed_`
and nothing else. -/
def bf_assign (self other : BFState) : BFState :=
  { self with core_ := other.core_, np_ := other.np_, nh_ := other.nh_,
              seedseed_ := other.seedseed_ }

/-- The AND-popcount loop of `intersection_count`, after the first
(unconditional) word pair. -/
def andPopcntLoop : List Nat → List Nat → Nat → Nat
| o :: os, t :: ts, sum => andPopcntLoop os ts (sum + popc (o &&& t))
| _, _, sum => sum

/-- `intersection_count(other)`: throws when `other.m() != m()`; otherwise
popcounts the word-wise AND, loading the first word pair before the loop guard
(so an empty array is an undefined read, modelled `none`). -/
def intersection_count (self other : BFState) : Except BFErr (Option Nat) :=
  if bfm other ≠ bfm self then .error .sizeMismatch
  else
    match other.core_, self.core_ with
    | o :: os, t :: ts => .ok (some (andPopcntLoop os ts (popc (o &&& t))))
    | _, _ => .ok none

/-- The `PERFORM_ITER` accumulator loop shared by `setbit_jaccard_index` and
`jaccard_index`, transcribed statement by statement: `l1` walks `other`'s
words, `l2` walks `self`'s; the macro's last statement assigns
`sumu + popcnt(l1 | l2)` to `sum2` (a dead store of the previous `sum2`
update), and `sumu` itself is never written. -/
def sjLoop : List Nat → List Nat → Nat × Nat × Nat → Nat × Nat × Nat
| a :: as, b :: bs, (s1, s2, su) =>
    let s1n := s1 + popc a
    let _s2dead := s2 + popc b
    let tmp := a ||| b
    let s2n := su + popc tmp
    sjLoop as bs (s1n, s2n, su)
| _, _, acc => acc

/-- `setbit_jaccard_index(other)` up to its three integer accumulators
`(usum1, usum2, usumu)`: throws when `other.m() != m()`; the first word of each
array is loaded before the loop (and never accumulated), so empty arrays are
undefined reads (`none`). The final floating division
`(usum1 + usum2 - usumu) / usumu` is outside the integer model. -/
def setbit_jaccard_index (self other : BFState) : Except BFErr (Option (Nat × Nat × Nat)) :=
  if bfm other ≠ bfm self then .error .sizeMismatch
  else
    match other.core_, self.core_ with
    | _ :: os, _ :: ts => .ok (some (sjLoop os ts (0, 0, 0)))
    | _, _ => .ok none

/-- `jaccard_index(other)` up to the same three integer accumulators (it runs
the identical `PERFORM_ITER` loop and then feeds them into floating-point
cardinality estimates, which are outside the integer model). -/
def jaccard_index (self other : BFState) : Except BFErr (Option (Nat × Nat × Nat)) :=
  if bfm other ≠ bfm self then .error .sizeMismatch
  else
    match other.core_, self.core_ with
    | _ :: os, _ :: ts => .ok (some (sjLoop os ts (0, 0, 0)))
    | _, _ => .ok none

/-- Little-endian byte serialization of one `uint64_t`. -/
def u64ToBytes (x : Nat) : List Nat :=
  [x % 256, x / 2 ^ 8 % 256, x / 2 ^ 16 % 256, x / 2 ^ 24 % 256,
   x / 2 ^ 32 % 256, x / 2 ^ 40 % 256, x / 2 ^ 48 % 256, x / 2 ^ 56 % 256]

/-- Little-endian decoding of up to eight bytes into one `uint64_t`. -/
def bytesToU64 (bs : List Nat) : Nat :=
  (bs.take 8).foldr (fun b acc => acc * 256 + b % 256) 0

/-- A `uint64_t` array as its byte stream. -/
def wordsToBytes (ws : List Nat) : List Nat := (ws.map u64ToBytes).flatten

/-- A byte stream as a `uint64_t` array (whole 8-byte words only). -/
def bytesToWords : List Nat → List Nat
| b0 :: b1 :: b2 :: b3 :: b4 :: b5 :: b6 :: b7 :: rest =>
    bytesToU64 [b0, b1, b2, b3, b4, b5, b6, b7] :: bytesToWords rest
| _ => []

/-- `write(fp)`: throws past 255 seeds, then emits, in order:
the three header bytes `{np_, nh_, uint8(seeds_.size())}`, the functor state
bytes, `seedseed_`, `mask_`, the seed words, the core words. -/
def bfWrite (st : BFState) : Except BFErr (List Nat) :=
  if 255 < st.seeds_.length then .error .tooManySeeds
  else .ok ([st.np_ % 256, st.nh_ % 256, st.seeds_.length % 256]
      ++ st.hf_ ++ u64ToBytes st.seedseed_ ++ u64ToBytes st.mask_
      ++ wordsToBytes st.seeds_ ++ wordsToBytes st.core_)

/-- `std::vector::resize(n)`: keep the first `n` elements, zero-fill the rest. -/
def resizeList (xs : List Nat) (n : Nat) : List Nat :=
  xs.take n ++ List.replicate (n - xs.length) 0

/-- `read(fp)`, transcribed statement by statement: read the three header
bytes; `seeds_.resize(arr[2])`; read the functor state (`hfsize` bytes),
`seedseed_` and `mask_`; `resize(1 << p())` when `np_` is nonzero (which
clears, reallocates, reseeds and recomputes `mask_`); finally `gzread` the
`core_.size()` words from wherever the stream now stands. Note the source
never reads the seed words back. Bytes the stream cannot supply leave the
cleared storage at zero. -/
def bfRead (mtw : Nat → Nat → Nat) (fuel hfsize : Nat) (st0 : BFState)
    (stream : List Nat) : BFState :=
  let np := stream.getD 0 0
  let nh := stream.getD 1 0
  let nseeds := stream.getD 2 0
  let r1 := stream.drop 3
  let st1 : BFState := { st0 with np_ := np, nh_ := nh,
                                  seeds_ := resizeList st0.seeds_ nseeds }
  let hfb := r1.take hfsize
  let r2 := r1.drop hfsize
  let seedseed := bytesToU64 (r2.take 8)
  let r3 := r2.drop 8
  let mask := bytesToU64 (r3.take 8)
  let r4 := r3.drop 8
  let st2 : BFState := { st1 with hf_ := hfb, seedseed_ := seedseed, mask_ := mask }
  let st3 := if st2.np_ ≠ 0 then bfresize mtw fuel st2 (2 ^ (st2.np_ + 6)) else st2
  let wanted := st3.core_.length * 8
  let coreBytes := r4.take wanted ++ List.replicate (wanted - r4.length) 0
  { st3 with core_ := bytesToWords coreBytes }

/-- `set1(ind)`: mask the index, OR the bit into its word. -/
def bfset1 (mask : Nat) (core : List Nat) (ind : Nat) : List Nat :=
  core.set ((ind &&& mask) >>> 6)
    ((core.getD ((ind &&& mask) >>> 6) 0) ||| (1 <<< ((ind &&& mask) &&& 63)))

/-- `is_set(ind)`: mask the index, test the bit. -/
def bfis_set (mask : Nat) (core : List Nat) (ind : Nat) : Bool :=
  (core.getD ((ind &&& mask) >>> 6) 0).testBit ((ind &&& mask) &&& 63)

/-- The tail loop of `sub_set1`: `set1(hv >> (subhind * shift))` for
`subhind = k, k+1, ...` (`c` iterations). -/
def sub_set1From (mask hv shift : Nat) : Nat → Nat → List Nat → List Nat
| _, 0, core => core
| k, c+1, core => sub_set1From mask hv shift (k+1) c (bfset1 mask core (hv >>> (k * shift)))

/-- `sub_set1(hv, n, shift)`: `set1(hv)`, then `set1(hv >> (subhind * shift))`
for `subhind = 1, ..., n-1`. -/
def bf_sub_set1 (mask : Nat) (core : List Nat) (hv n shift : Nat) : List Nat :=
  sub_set1From mask hv shift 1 (n - 1) (bfset1 mask core hv)

/-- The tail loop of `all_set`, mirroring `sub_set1From`. -/
def all_setFrom (mask : Nat) (core : List Nat) (hv shift : Nat) : Nat → Nat → Bool
| _, 0 => true
| k, c+1 => bfis_set mask core (hv >>> (k * shift)) && all_setFrom mask core hv shift (k+1) c

/-- `all_set(hv, n, shift)`: `is_set(hv)` and then every shifted sub-hash. -/
def bf_all_set (mask : Nat) (core : List Nat) (hv n shift : Nat) : Bool :=
  bfis_set mask core hv && all_setFrom mask core hv shift 1 (n - 1)

/-- The seed-consuming loop of `addh` at scalar width: each seed `s` yields the
digest `hf(element ^ s)` and stamps `min(npw, nleft)` sub-hashes; running out
of seeds with work left would read past `seeds_` in the source (`none`). -/
def addhLoop (hf : Nat → Nat) (npw shift mask x : Nat) :
    List Nat → Nat → List Nat → Option (List Nat)
| _, 0, core => some core
| [], _+1, _ => none
| s :: rest, n+1, core =>
    addhLoop hf npw shift mask x rest (n + 1 - min npw (n + 1))
      (bf_sub_set1 mask core (hf (x ^^^ s)) (min npw (n + 1)) shift)

/-- `addh(element)` (the body of `add`): stamp `nh_` sub-hashes drawn from the
seed schedule. -/
def bfaddh (hf : Nat → Nat) (st : BFState) (x : Nat) : Option BFState :=
  (addhLoop hf (nhashesper64bitword (st.np_ + 6)) (st.np_ + 6) st.mask_ x
      st.seeds_ st.nh_ st.core_).map (fun c => { st with core_ := c })

/-- The seed-consuming loop of `may_contain` at scalar width, short-circuiting
on the first missed chunk exactly as the source's `goto f` does. -/
def may_containLoop (hf : Nat → Nat) (npw shift mask x : Nat) :
    List Nat → Nat → List Nat → Option Bool
| _, 0, _ => some true
| [], _+1, _ => none
| s :: rest, n+1, core =>
    if bf_all_set mask core (hf (x ^^^ s)) (min npw (n + 1)) shift
    then may_containLoop hf npw shift mask x rest (n + 1 - min npw (n + 1)) core
    else some false

/-- `may_contain(val)`: true iff every one of the `nh_` scheduled bits is set. -/
def bfmay_contain (hf : Nat → Nat) (st : BFState) (x : Nat) : Option Bool :=
  may_containLoop hf (nhashesper64bitword (st.np_ + 6)) (st.np_ + 6) st.mask_ x
    st.seeds_ st.nh_ st.core_

/-- Error signal of the LSH index (`throw std::invalid_argument` in `update`). -/
inductive SSIErr where
| shapeMismatch
deriving DecidableEq

/-- Observable state of `SetSketchIndex<KeyT=uint64_t, IdT=uint32_t>`. Each
`ska::flat_hash_map<KeyT, vector<IdT>>` is modelled extensionally as a total
function from key to posting list: a key the map does not hold maps to `[]`,
matching both `operator[]` (default-constructs an empty vector) and `find`
(a miss contributes no ids). -/
structure SSI where
  m_ : Nat
  packed_maps_ : List (List (Nat → List Nat))
  regs_per_reg_ : List Nat
  total_ids_ : Nat

/-- `subtab[j][myhash].push_back(my_id)` on the functional map model. -/
def mapAppend (mp : Nat → List Nat) (k v : Nat) : Nat → List Nat :=
  fun q => if q = k then mp k ++ [v] else mp q

/-- The inner row loop of `update`: one `hash_index(item, i, j)` per row `j`. -/
def updRows (hidx : List Nat → Nat → Nat → Nat) (item : List Nat) (myid i : Nat) :
    List (Nat → List Nat) → Nat → List (Nat → List Nat)
| [], _ => []
| mp :: rest, j => mapAppend mp (hidx item i j) myid :: updRows hidx item myid i rest (j+1)

/-- The outer table loop of `update`. -/
def updTables (hidx : List Nat → Nat → Nat → Nat) (item : List Nat) (myid : Nat) :
    List (List (Nat → List Nat)) → Nat → List (List (Nat → List Nat))
| [], _ => []
| tab :: rest, i => updRows hidx item myid i tab 0 :: updTables hidx item myid rest (i+1)

/-- `update(item)`: throw `ShapeMismatch` before any mutation when
`item.size() != m_`; otherwise take `my_id = total_ids_++` and append it under
every band key. The source's outer loop bound is `regs_per_reg_.size()`
(which equals `packed_maps_.size()` for every constructed index, as all three
constructors push both vectors in lockstep); `hash_index` itself (XXH3/XXH64
digests of register windows, external hash collaborators per the spec) enters
as the parameter `hidx`, which only ever sees `(item, i, j)` for this fixed
index, exactly as the member function does. -/
def ssiUpdate (hidx : List Nat → Nat → Nat → Nat) (I : SSI) (item : List Nat) :
    Except SSIErr SSI :=
  if item.length ≠ I.m_ then .error .shapeMismatch
  else
    let nR := I.regs_per_reg_.length
    .ok { I with total_ids_ := I.total_ids_ + 1,
                 packed_maps_ := updTables hidx item I.total_ids_ (I.packed_maps_.take nR) 0
                                   ++ I.packed_maps_.drop nR }

/-- The posting-list walk of `query_candidates`: each id not yet in the running
set is appended to `passing_ids` (repeat hits only bump the dead tally in
`rset`, whose key set always equals `passing_ids`, so the running set is
modelled by `passing_ids` itself). -/
def scanPosting : List Nat → List Nat → List Nat
| ids, [] => ids
| ids, v :: rest => scanPosting (if v ∈ ids then ids else ids ++ [v]) rest

/-- The row loop of `query_candidates` over one table `i`. -/
def scanRows (hidx : List Nat → Nat → Nat → Nat) (item : List Nat) (i : Nat) :
    List (Nat → List Nat) → Nat → List Nat → List Nat
| [], _, ids => ids
| mp :: rest, j, ids => scanRows hidx item i rest (j+1) (scanPosting ids (mp (hidx item i j)))

/-- The descending table loop of `query_candidates`: visit tables
`i-1, i-2, ..., 0`, record `passing_ids.size() - items_before` per visited
table, and break after the current table once `rset.size() >= maxcand`. -/
def queryGo (hidx : List Nat → Nat → Nat → Nat) (item : List Nat) (maxcand : Nat)
    (maps : List (List (Nat → List Nat))) : Nat → List Nat → List Nat × List Nat
| 0, ids => (ids, [])
| i+1, ids =>
    let ids2 := scanRows hidx item i (maps.getD i []) 0 ids
    let cnt := ids2.length - ids.length
    if maxcand ≤ ids2.length then (ids2, [cnt])
    else
      let r := queryGo hidx item maxcand maps i ids2
      (r.1, cnt :: r.2)

/-- `query_candidates(item, maxcand, starting_idx)`; the source's default
`starting_idx = size_t(-1)` becomes `regs_per_reg_.size()`. -/
def query_candidates (hidx : List Nat → Nat → Nat → Nat) (I : SSI) (item : List Nat)
    (maxcand starting : Nat) : List Nat × List Nat :=
  queryGo hidx item maxcand I.packed_maps_ starting []

/-- Posting list of band `(i, j)` at key `k` (total accessor for statements). -/
def postingAt (I : SSI) (i j k : Nat) : List Nat :=
  ((I.packed_maps_.getD i []).getD j (fun _ => [])) k

/-- Number of rows of table `i` (total accessor for statements). -/
def rowsAt (I : SSI) (i : Nat) : Nat := (I.packed_maps_.getD i []).length

/-- A reseed loop whose entry condition already fails returns the seed list
unchanged, for any fuel and any PRNG stream. -/
theorem reseedLoop_done (stream : Nat → Nat) (npw nh idx fuel : Nat) (seeds : List Nat)
    (h : ¬ seeds.length * npw < nh) :
    reseedLoop stream npw nh idx fuel seeds = seeds := by
  cases fuel <;> simp [reseedLoop, h]

/-- Concrete two-word filter used against the halving claim. -/
def exF2 : BFState :=
  { np_ := 1, nh_ := 1, hf_ := [], core_ := [1, 2], seeds_ := [5], seedseed_ := 7, mask_ := 127 }

/-- C2: the claim says `halve()` halves the word storage and decrements `np`
by one. Evaluating the source's `halve` on a two-word filter with `np = 1`
(the `np_ < 17` branch): the lower half is OR-folded, but `np_` stays 1 and
the storage still holds both words — storage is not halved and `np` is not
decremented. -/
theorem thm_C2_halve_bug :
    (bfhalve exF2).np_ = 1 ∧ (bfhalve exF2).core_ = [3, 2]
    ∧ exF2.np_ = 1 ∧ exF2.core_ = [1, 2] := by decide

/-- Filters for the bit-Jaccard accumulator claim. -/
def exA3 : BFState :=
  { np_ := 1, nh_ := 1, hf_ := [], core_ := [1, 1], seeds_ := [5], seedseed_ := 7, mask_ := 127 }

/-- Second filter for the bit-Jaccard accumulator claim. -/
def exB3 : BFState :=
  { np_ := 1, nh_ := 1, hf_ := [], core_ := [3, 1], seeds_ := [5], seedseed_ := 7, mask_ := 127 }

/-- C3: the claim says `setbit_jaccard_index` maintains three independent
accumulators with `sumU = popcount(A OR B)`. Evaluating the source loop on
two two-word filters: the returned accumulators are `(1, 1, 0)` — the union
accumulator `usumu` is 0 (the macro's last statement stores into `sum2`
instead, and the first word pair is never accumulated), while the popcount of
the actual word-wise OR is 3. The function then divides by `usumu = 0`. -/
theorem thm_C3_sumu_never_updated :
    (setbit_jaccard_index exA3 exB3).toOption = some (some (1, 1, 0))
    ∧ popc (1 ||| 3) + popc (1 ||| 1) = 3 := by decide

/-- First filter for the parameter-check claim: `nh_` 2, `seedseed_` 7. -/
def exA4 : BFState :=
  { np_ := 1, nh_ := 2, hf_ := [], core_ := [1, 0], seeds_ := [5], seedseed_ := 7, mask_ := 127 }

/-- Second filter for the parameter-check claim: same word count, but `nh_` 3
and `seedseed_` 9, so `same_params` is false. -/
def exB4 : BFState :=
  { np_ := 1, nh_ := 3, hf_ := [], core_ := [2, 0], seeds_ := [6], seedseed_ := 9, mask_ := 127 }

/-- C4 counterexample: two filters that differ in `nh` and `seedseed`
(`same_params = false`) but have equal `m()`; all three comparison functions
return successfully instead of failing as the claim states. -/
theorem thm_C4_cex :
    same_params exA4 exB4 = false
    ∧ exceptIsOk (intersection_count exA4 exB4) = true
    ∧ exceptIsOk (jaccard_index exA4 exB4) = true
    ∧ exceptIsOk (setbit_jaccard_index exA4 exB4) = true := by decide

/-- C4 amended: `intersection_count`, `jaccard_index` and
`setbit_jaccard_index` fail exactly when the two filters differ in `m()`
(the word-array size in bits); `np`, `nh` and `seedseed` are not checked. -/
theorem thm_C4_amended : ∀ a b : BFState,
    (exceptIsOk (intersection_count a b) = true ↔ bfm b = bfm a)
    ∧ (exceptIsOk (jaccard_index a b) = true ↔ bfm b = bfm a)
    ∧ (exceptIsOk (setbit_jaccard_index a b) = true ↔ bfm b = bfm a) := by
  intro a b
  refine ⟨?_, ?_, ?_⟩ <;>
    simp only [intersection_count, jaccard_index, setbit_jaccard_index] <;>
    split_ifs with h <;>
    cases hb : b.core_ <;> cases ha : a.core_ <;>
    simp_all [exceptIsOk]

/-- Concrete filter used against the resize-oversize claim. -/
def exF6 : BFState :=
  { np_ := 1, nh_ := 1, hf_ := [], core_ := [0, 0], seeds_ := [1], seedseed_ := 3, mask_ := 127 }

/-- C6 counterexample: `resize(2^50)` raises no error at all and leaves the
filter with `np_ = 44 > 40`; the claim says such a resize must fail with
`Oversize`. (The source's `resize` body contains no such check.) -/
theorem thm_C6_cex :
    exceptIsOk (bfresizeE (fun _ _ => 0) 0 exF6 (2 ^ 50)) = true
    ∧ (bfresizeE (fun _ _ => 0) 0 exF6 (2 ^ 50)).toOption.map BFState.np_ = some 44
    ∧ 40 < 44 := by
  refine ⟨rfl, ?_, by decide⟩
  decide

/-- C6 amended: only construction enforces the limit — `bfbase_t(l2sz, ...)`
fails with `Oversize` exactly when the stored `np` would exceed 40 — while
`resize` performs no oversize check and always succeeds. -/
theorem thm_C6_amended :
    ∀ (mtw : Nat → Nat → Nat) (fuel l2sz nh sv : Nat) (hfb : List Nat) (st : BFState) (sz : Nat),
    (exceptIsOk (bfbase_new mtw fuel l2sz nh sv hfb) = true
       ↔ (if 6 < l2sz then (l2sz - 6) % 256 else 0) ≤ 40)
    ∧ exceptIsOk (bfresizeE mtw fuel st sz) = true := by
  intro mtw fuel l2sz nh sv hfb st sz
  refine ⟨?_, rfl⟩
  simp only [bfbase_new]
  split_ifs with h1 h2 <;> simp_all [exceptIsOk]

/-- C9: the claim (and the spec's edge-case list) says `popcnt()` on an empty
filter returns 0. The default-size constructor (`l2sz = 6`) yields `np_ = 0`
and allocates no word storage, and on that filter `popcnt` unconditionally
loads the first word of the empty array before its loop guard — an
out-of-bounds read (`none`), not 0. -/
theorem thm_C9_popcnt_empty :
    (bfbase_new (fun _ _ => 0) 0 6 1 37 []).toOption.map bfpopcnt = some none
    ∧ (bfbase_new (fun _ _ => 0) 0 6 1 37 []).toOption.map BFState.core_ = some []
    ∧ (bfbase_new (fun _ _ => 0) 0 6 1 37 []).toOption.map BFState.np_ = some 0 := by decide

/-- C10: copy-assignment copies `core_`, `np_`, `nh_` and `seedseed_` from the
right-hand side and leaves the target's `seeds_` and `mask_` (and functor
state) untouched. -/
theorem thm_C10_assign : ∀ f g : BFState,
    (bf_assign f g).core_ = g.core_ ∧ (bf_assign f g).np_ = g.np_
    ∧ (bf_assign f g).nh_ = g.nh_ ∧ (bf_assign f g).seedseed_ = g.seedseed_
    ∧ (bf_assign f g).seeds_ = f.seeds_ ∧ (bf_assign f g).mask_ = f.mask_ := by
  intro f g
  exact ⟨rfl, rfl, rfl, rfl, rfl, rfl⟩

/-- Concrete filter with `np = 1` (two words, one seed) used against the
serialization round-trip claim. -/
def exF1 : BFState :=
  { np_ := 1, nh_ := 1, hf_ := [0], core_ := [3, 9], seeds_ := [5], seedseed_ := 7, mask_ := 127 }

/-- The freshly value-initialized filter `read` is invoked on (the
path-constructor default-initializes the vectors empty before calling `read`). -/
def freshF : BFState :=
  { np_ := 0, nh_ := 0, hf_ := [], core_ := [], seeds_ := [], seedseed_ := 0, mask_ := 0 }

/-- The byte stream `write` emits for `exF1` (functor state size 1). -/
def c1Stream : List Nat :=
  [1, 1, 1] ++ [0] ++ u64ToBytes 7 ++ u64ToBytes 127 ++ wordsToBytes [5] ++ wordsToBytes [3, 9]

/-- C1: the claim says `read(write(F))` restores all observable state, with the
seeds read back between the header fields and the words. On the filter `exF1`
(`np = 1`, seeds `[5]`, words `[3, 9]`), `write` emits the seeds before the
words, but `read` never consumes them: the restored `seeds_` is the stale
zero-resized vector `[0]`, and the word read starts at the seed bytes, so the
restored `core_` is `[5, 3]` — the seed value followed by a shifted prefix of
the original words. This holds for every PRNG stream and fuel, because the
reseed inside `read`'s `resize` finds the resized seed vector already long
enough and appends nothing. -/
theorem thm_C1_roundtrip_bug :
    ∀ (mtw : Nat → Nat → Nat) (fuel : Nat),
    (bfWrite exF1).toOption = some c1Stream
    ∧ (bfRead mtw fuel 1 freshF c1Stream).seeds_ = [0]
    ∧ (bfRead mtw fuel 1 freshF c1Stream).core_ = [5, 3]
    ∧ exF1.seeds_ = [5] ∧ exF1.core_ = [3, 9] := by
  intro mtw fuel
  have hr : reseedLoop (mtw 7) 9 1 0 fuel [0] = [0] :=
    reseedLoop_done _ _ _ _ _ _ (by decide)
  refine ⟨by decide, ?_, ?_, rfl, rfl⟩ <;>
    simp [bfRead, c1Stream, freshF, bfresize, reseed, resizeList, roundup, ilog2, ilog2Aux,
          nhashesper64bitword, u64ToBytes, wordsToBytes, bytesToU64, bytesToWords, hr,
          List.getD]

/-- `set1` never changes the word count. -/
theorem length_bfset1 (mask : Nat) (core : List Nat) (i : Nat) :
    (bfset1 mask core i).length = core.length := by
  simp [bfset1]

/-- A set bit's word index is within the array. -/
theorem bfis_set_word_lt (mask : Nat) (core : List Nat) (j : Nat)
    (h : bfis_set mask core j = true) : (j &&& mask) >>> 6 < core.length := by
  by_contra hle
  push_neg at hle
  unfold bfis_set at h
  rw [List.getD_eq_getElem?_getD, List.getElem?_eq_none hle] at h
  simp [Nat.zero_testBit] at h

/-- `set1` preserves every already-set bit. -/
theorem bfis_set_bfset1_mono (mask : Nat) (core : List Nat) (i j : Nat)
    (h : bfis_set mask core j = true) : bfis_set mask (bfset1 mask core i) j = true := by
  have hj := bfis_set_word_lt mask core j h
  unfold bfis_set at h ⊢
  unfold bfset1
  rw [List.getD_eq_getElem?_getD, List.getElem?_set]
  rw [List.getD_eq_getElem?_getD] at h
  by_cases he : (i &&& mask) >>> 6 = (j &&& mask) >>> 6
  · rw [if_pos he, if_pos (he ▸ hj)]
    simp only [Option.getD_some]
    rw [Nat.testBit_or, List.getD_eq_getElem?_getD, he]
    simp [h]
  · rw [if_neg he]
    exact h

/-- `set1(i)` sets bit `i` (its masked word index being in range). -/
theorem bfis_set_bfset1_self (mask : Nat) (core : List Nat) (i : Nat)
    (hl : (i &&& mask) >>> 6 < core.length) :
    bfis_set mask (bfset1 mask core i) i = true := by
  unfold bfis_set bfset1
  rw [List.getD_eq_getElem?_getD, List.getElem?_set, if_pos rfl, if_pos hl]
  simp [Nat.testBit_or, Nat.one_shiftLeft, Nat.testBit_two_pow_self]

/-- The `sub_set1` tail loop never changes the word count. -/
theorem sub_set1From_length (mask hv shift : Nat) :
    ∀ (c k : Nat) (core : List Nat),
      (sub_set1From mask hv shift k c core).length = core.length := by
  intro c
  induction c with
  | zero => intro k core; rfl
  | succ c ih =>
      intro k core
      simp only [sub_set1From]
      rw [ih, length_bfset1]

/-- `sub_set1` never changes the word count. -/
theorem length_bf_sub_set1 (mask : Nat) (core : List Nat) (hv n shift : Nat) :
    (bf_sub_set1 mask core hv n shift).length = core.length := by
  unfold bf_sub_set1
  rw [sub_set1From_length, length_bfset1]

/-- The `sub_set1` tail loop preserves every already-set bit. -/
theorem sub_set1From_mono (mask hv shift : Nat) :
    ∀ (c k : Nat) (core : List Nat) (j : Nat),
      bfis_set mask core j = true →
      bfis_set mask (sub_set1From mask hv shift k c core) j = true := by
  intro c
  induction c with
  | zero => intro k core j h; exact h
  | succ c ih =>
      intro k core j h
      simp only [sub_set1From]
      exact ih (k+1) _ j (bfis_set_bfset1_mono _ _ _ _ h)

/-- `sub_set1` preserves every already-set bit. -/
theorem bf_sub_set1_mono (mask : Nat) (core : List Nat) (hv n shift j : Nat)
    (h : bfis_set mask core j = true) :
    bfis_set mask (bf_sub_set1 mask core hv n shift) j = true :=
  sub_set1From_mono mask hv shift (n-1) 1 _ j (bfis_set_bfset1_mono _ _ _ _ h)

/-- The `sub_set1` tail loop sets every sub-hash bit it walks. -/
theorem sub_set1From_sets (mask hv shift : Nat) :
    ∀ (c k : Nat) (core : List Nat) (L : Nat), core.length = L →
      (∀ ind, (ind &&& mask) >>> 6 < L) →
      ∀ t, k ≤ t → t < k + c →
      bfis_set mask (sub_set1From mask hv shift k c core) (hv >>> (t * shift)) = true := by
  intro c
  induction c with
  | zero => intro k core L hlen hB t h1 h2; exact absurd h2 (by omega)
  | succ c ih =>
      intro k core L hlen hB t h1 h2
      simp only [sub_set1From]
      rcases eq_or_lt_of_le h1 with he | hlt
      · subst he
        apply sub_set1From_mono
        apply bfis_set_bfset1_self
        rw [hlen]; exact hB _
      · exact ih (k+1) _ L (by rw [length_bfset1]; exact hlen) hB t hlt (by omega)

/-- `sub_set1(hv, n, shift)` sets the head bit `hv`. -/
theorem bf_sub_set1_sets_head (mask : Nat) (core : List Nat) (hv n shift L : Nat)
    (hlen : core.length = L) (hB : ∀ ind, (ind &&& mask) >>> 6 < L) :
    bfis_set mask (bf_sub_set1 mask core hv n shift) hv = true := by
  unfold bf_sub_set1
  apply sub_set1From_mono
  apply bfis_set_bfset1_self
  rw [hlen]; exact hB hv

/-- `sub_set1(hv, n, shift)` sets every shifted sub-hash bit. -/
theorem bf_sub_set1_sets_tail (mask : Nat) (core : List Nat) (hv n shift L : Nat)
    (hlen : core.length = L) (hB : ∀ ind, (ind &&& mask) >>> 6 < L) :
    ∀ t, 1 ≤ t → t < 1 + (n - 1) →
      bfis_set mask (bf_sub_set1 mask core hv n shift) (hv >>> (t * shift)) = true := by
  intro t h1 h2
  unfold bf_sub_set1
  exact sub_set1From_sets mask hv shift (n-1) 1 (bfset1 mask core hv) L
    (by rw [length_bfset1]; exact hlen) hB t h1 h2

/-- `all_set`'s tail loop is true once each of its bits is individually set. -/
theorem all_setFrom_of_pointwise (mask : Nat) (core : List Nat) (hv shift : Nat) :
    ∀ (c k : Nat),
      (∀ t, k ≤ t → t < k + c → bfis_set mask core (hv >>> (t * shift)) = true) →
      all_setFrom mask core hv shift k c = true := by
  intro c
  induction c with
  | zero => intro k _; rfl
  | succ c ih =>
      intro k h
      simp only [all_setFrom, Bool.and_eq_true]
      exact ⟨h k le_rfl (by omega), ih (k+1) (fun t ht1 ht2 => h t (by omega) (by omega))⟩

/-- Main invariant for C5: running the `addh` seed loop and then the
`may_contain` seed loop, with the same seed schedule, the same remaining-hash
budget and enough seeds to cover it, always answers `some true`; the stamped
core keeps its length and every previously-set bit. -/
theorem addh_mc_aux (hf : Nat → Nat) (npw shift mask x L : Nat)
    (hB : ∀ ind, (ind &&& mask) >>> 6 < L) :
    ∀ (seeds : List Nat) (nleft : Nat) (core : List Nat), core.length = L →
      nleft ≤ seeds.length * npw →
      ∃ c2, addhLoop hf npw shift mask x seeds nleft core = some c2
        ∧ c2.length = L
        ∧ (∀ j, bfis_set mask core j = true → bfis_set mask c2 j = true)
        ∧ may_containLoop hf npw shift mask x seeds nleft c2 = some true := by
  intro seeds
  induction seeds with
  | nil =>
      intro nleft core hlen hbound
      have h0 : nleft = 0 := by simp at hbound; omega
      subst h0
      exact ⟨core, rfl, hlen, fun j h => h, rfl⟩
  | cons s rest ih =>
      intro nleft core hlen hbound
      cases nleft with
      | zero => exact ⟨core, rfl, hlen, fun j h => h, rfl⟩
      | succ n =>
          have hbound' : n + 1 - min npw (n + 1) ≤ rest.length * npw := by
            simp only [List.length_cons, Nat.succ_mul] at hbound
            omega
          have hlen' : (bf_sub_set1 mask core (hf (x ^^^ s)) (min npw (n + 1)) shift).length = L := by
            rw [length_bf_sub_set1]; exact hlen
          obtain ⟨c2, ha, hl2, hmono, hmc⟩ :=
            ih (n + 1 - min npw (n + 1)) (bf_sub_set1 mask core (hf (x ^^^ s)) (min npw (n + 1)) shift)
              hlen' hbound'
          refine ⟨c2, ?_, hl2, ?_, ?_⟩
          · simp only [addhLoop]
            exact ha
          · intro j hj
            exact hmono j (bf_sub_set1_mono _ _ _ _ _ _ hj)
          · have hall : bf_all_set mask c2 (hf (x ^^^ s)) (min npw (n + 1)) shift = true := by
              unfold bf_all_set
              rw [Bool.and_eq_true]
              constructor
              · exact hmono _ (bf_sub_set1_sets_head mask core (hf (x ^^^ s)) _ shift L hlen hB)
              · exact all_setFrom_of_pointwise mask c2 (hf (x ^^^ s)) shift _ 1
                  (fun t ht1 ht2 =>
                    hmono _ (bf_sub_set1_sets_tail mask core (hf (x ^^^ s)) _ shift L hlen hB t ht1 ht2))
            simp only [may_containLoop, hall, if_true]
            exact hmc

/-- C5: for every filter state satisfying the class invariants
(`mask_ = m - 1`, `core_` holding `m / 64` words — which every sequence of
prior `add` calls preserves — and a seed schedule covering `nh_` sub-hashes,
as `reseed` guarantees), with `np ≥ 1` and `nh ≥ 1`, a `may_contain(x)`
immediately after `addh(x)` returns true, for every 64-bit `x` and every
digest functor. -/
theorem thm_C5_add_then_contains (hf : Nat → Nat) (st : BFState) (x : Nat)
    (hnp : 1 ≤ st.np_) (hnh : 1 ≤ st.nh_)
    (hmask : st.mask_ = 2 ^ (st.np_ + 6) - 1)
    (hlen : st.core_.length = 2 ^ st.np_)
    (hseeds : st.nh_ ≤ st.seeds_.length * nhashesper64bitword (st.np_ + 6)) :
    (bfaddh hf st x).bind (fun st2 => bfmay_contain hf st2 x) = some true := by
  have hB : ∀ ind, (ind &&& st.mask_) >>> 6 < 2 ^ st.np_ := by
    intro ind
    rw [Nat.shiftRight_eq_div_pow]
    rw [Nat.div_lt_iff_lt_mul (by positivity)]
    calc ind &&& st.mask_ ≤ st.mask_ := Nat.and_le_right
      _ = 2 ^ (st.np_ + 6) - 1 := hmask
      _ < 2 ^ (st.np_ + 6) := Nat.sub_lt (by positivity) Nat.one_pos
      _ = 2 ^ st.np_ * 2 ^ 6 := by rw [← pow_add]
  obtain ⟨c2, ha, _, _, hmc⟩ :=
    addh_mc_aux hf (nhashesper64bitword (st.np_ + 6)) (st.np_ + 6) st.mask_ x (2 ^ st.np_) hB
      st.seeds_ st.nh_ st.core_ hlen hseeds
  unfold bfaddh bfmay_contain
  rw [ha, Option.map_some', Option.some_bind]
  exact hmc

/-- Concrete well-formed filter for the C5 witness. -/
def exF5 : BFState :=
  { np_ := 1, nh_ := 1, hf_ := [], core_ := [0, 0], seeds_ := [0], seedseed_ := 0, mask_ := 127 }

/-- C5 witness: the theorem applied at a concrete filter, digest and key. -/
theorem thm_C5_witness :
    (bfaddh (fun a => a) exF5 0).bind (fun st2 => bfmay_contain (fun a => a) st2 0) = some true :=
  thm_C5_add_then_contains (fun a => a) exF5 0 (by decide) (by decide) (by decide) (by decide)
    (by decide)

/-- `update`'s row loop keeps the row count. -/
theorem updRows_length (hidx : List Nat → Nat → Nat → Nat) (item : List Nat) (myid i : Nat) :
    ∀ (L : List (Nat → List Nat)) (j0 : Nat),
      (updRows hidx item myid i L j0).length = L.length := by
  intro L
  induction L with
  | nil => intro j0; rfl
  | cons mp rest ih => intro j0; simp [updRows, ih]

/-- Row `j` after `update`'s row loop: the map with the id appended under the
band key of row `j0 + j`, rows out of range giving the empty default. -/
theorem updRows_getD (hidx : List Nat → Nat → Nat → Nat) (item : List Nat) (myid i : Nat) :
    ∀ (L : List (Nat → List Nat)) (j0 j : Nat),
      (updRows hidx item myid i L j0).getD j (fun _ => []) =
        if j < L.length then mapAppend (L.getD j (fun _ => [])) (hidx item i (j0 + j)) myid
        else (fun _ => []) := by
  intro L
  induction L with
  | nil => intro j0 j; simp [updRows]
  | cons mp rest ih =>
      intro j0 j
      cases j with
      | zero => simp [updRows]
      | succ j =>
          simp only [updRows, List.getD_cons_succ]
          rw [ih (j0+1) j]
          by_cases hj : j < rest.length
          · rw [if_pos hj, if_pos (by simp; omega)]
            have harith : j0 + 1 + j = j0 + (j + 1) := by omega
            rw [harith]
          · rw [if_neg hj, if_neg (by simp; omega)]

/-- `update`'s table loop keeps the table count. -/
theorem updTables_length (hidx : List Nat → Nat → Nat → Nat) (item : List Nat) (myid : Nat) :
    ∀ (T : List (List (Nat → List Nat))) (i0 : Nat),
      (updTables hidx item myid T i0).length = T.length := by
  intro T
  induction T with
  | nil => intro i0; rfl
  | cons tab rest ih => intro i0; simp [updTables, ih]

/-- Table `i` after `update`'s table loop: its row loop applied at table index
`i0 + i`, tables out of range giving the empty default. -/
theorem updTables_getD (hidx : List Nat → Nat → Nat → Nat) (item : List Nat) (myid : Nat) :
    ∀ (T : List (List (Nat → List Nat))) (i0 i : Nat),
      (updTables hidx item myid T i0).getD i [] =
        if i < T.length then updRows hidx item myid (i0 + i) (T.getD i []) 0 else [] := by
  intro T
  induction T with
  | nil => intro i0 i; simp [updTables]
  | cons tab rest ih =>
      intro i0 i
      cases i with
      | zero => simp [updTables]
      | succ i =>
          simp only [updTables, List.getD_cons_succ]
          rw [ih (i0+1) i]
          by_cases hi : i < rest.length
          · rw [if_pos hi, if_pos (by simp; omega)]
            have harith : i0 + 1 + i = i0 + (i + 1) := by omega
            rw [harith]
          · rw [if_neg hi, if_neg (by simp; omega)]

/-- C7: `update(sketch)` fails with `ShapeMismatch` exactly when the sketch
length differs from `m` — the check precedes every mutation, so a failing call
leaves the index untouched — and on success it uses id `total_ids`, increments
`total_ids`, and appends that id to `packed_maps[i][j][key]` for the band key
of every `(i, j)` while leaving every other posting list unchanged. The
hypothesis is the constructor invariant that `packed_maps_` and
`regs_per_reg_` have equal length (all three constructors push them in
lockstep). -/
theorem thm_C7_update (hidx : List Nat → Nat → Nat → Nat) (I : SSI) (item : List Nat)
    (hw : I.packed_maps_.length = I.regs_per_reg_.length) :
    (exceptIsOk (ssiUpdate hidx I item) = true ↔ item.length = I.m_)
    ∧ (item.length ≠ I.m_ → ssiUpdate hidx I item = .error .shapeMismatch)
    ∧ (∀ J, ssiUpdate hidx I item = .ok J →
        J.total_ids_ = I.total_ids_ + 1
        ∧ J.packed_maps_.length = I.packed_maps_.length
        ∧ ∀ i j k, postingAt J i j k =
            if i < I.packed_maps_.length ∧ j < rowsAt I i ∧ k = hidx item i j
            then postingAt I i j k ++ [I.total_ids_]
            else postingAt I i j k) := by
  have htake : I.packed_maps_.take I.regs_per_reg_.length = I.packed_maps_ := by
    rw [← hw]; exact List.take_length I.packed_maps_
  have hdrop : I.packed_maps_.drop I.regs_per_reg_.length = [] := by
    rw [← hw]; exact List.drop_length I.packed_maps_
  unfold ssiUpdate
  by_cases hcond : item.length ≠ I.m_
  · rw [if_pos hcond]
    refine ⟨by simp [exceptIsOk, hcond], fun _ => rfl, ?_⟩
    intro J hJ
    cases hJ
  · rw [if_neg hcond]
    push_neg at hcond
    refine ⟨by simp [exceptIsOk, hcond], fun h => absurd hcond h, ?_⟩
    intro J hJ
    cases hJ
    refine ⟨rfl, ?_, ?_⟩
    · simp only [htake, hdrop, List.append_nil]
      exact updTables_length hidx item I.total_ids_ I.packed_maps_ 0
    · intro i j k
      unfold postingAt rowsAt
      simp only [htake, hdrop, List.append_nil]
      rw [updTables_getD]
      by_cases hi : i < I.packed_maps_.length
      · rw [if_pos hi]
        rw [updRows_getD]
        by_cases hj : j < (I.packed_maps_.getD i []).length
        · rw [if_pos hj]
          simp only [Nat.zero_add]
          unfold mapAppend
          by_cases hk : k = hidx item i j
          · rw [if_pos hk, if_pos ⟨hi, hj, hk⟩, hk]
          · rw [if_neg hk, if_neg (by tauto)]
        · rw [if_neg hj, if_neg (by tauto)]
          rw [List.getD_eq_default _ _ (le_of_not_lt hj)]
      · rw [if_neg hi, if_neg (by tauto)]
        rw [List.getD_eq_default _ _ (le_of_not_lt hi)]

/-- Concrete one-table, one-row index for the C7 witness. -/
def exI7 : SSI :=
  { m_ := 2, packed_maps_ := [[fun _ => []]], regs_per_reg_ := [1], total_ids_ := 0 }

/-- C7 witness: the theorem applied to a concrete index and sketch. -/
theorem thm_C7_witness :
    (exceptIsOk (ssiUpdate (fun _ _ _ => 5) exI7 [10, 20]) = true
      ↔ ([10, 20] : List Nat).length = exI7.m_) :=
  (thm_C7_update (fun _ _ _ => 5) exI7 [10, 20] rfl).1

/-- A posting-list scan only appends new ids after the running list. -/
theorem scanPosting_extend : ∀ (post ids : List Nat), ∃ e, scanPosting ids post = ids ++ e := by
  intro post
  induction post with
  | nil => intro ids; exact ⟨[], by simp [scanPosting]⟩
  | cons v rest ih =>
      intro ids
      simp only [scanPosting]
      by_cases hv : v ∈ ids
      · rw [if_pos hv]; exact ih ids
      · rw [if_neg hv]
        obtain ⟨e, he⟩ := ih (ids ++ [v])
        exact ⟨[v] ++ e, by rw [he, List.append_assoc]⟩

/-- A posting-list scan preserves distinctness of the running id list. -/
theorem scanPosting_nodup : ∀ (post ids : List Nat), ids.Nodup → (scanPosting ids post).Nodup := by
  intro post
  induction post with
  | nil => intro ids h; simpa [scanPosting] using h
  | cons v rest ih =>
      intro ids h
      simp only [scanPosting]
      by_cases hv : v ∈ ids
      · rw [if_pos hv]; exact ih ids h
      · rw [if_neg hv]
        refine ih (ids ++ [v]) ?_
        rw [List.nodup_append]
        refine ⟨h, List.nodup_singleton v, ?_⟩
        intro a ha hb
        simp at hb
        subst hb
        exact hv ha

/-- A table scan only appends new ids after the running list. -/
theorem scanRows_extend (hidx : List Nat → Nat → Nat → Nat) (item : List Nat) (i : Nat) :
    ∀ (rows : List (Nat → List Nat)) (j : Nat) (ids : List Nat),
      ∃ e, scanRows hidx item i rows j ids = ids ++ e := by
  intro rows
  induction rows with
  | nil => intro j ids; exact ⟨[], by simp [scanRows]⟩
  | cons mp rest ih =>
      intro j ids
      simp only [scanRows]
      obtain ⟨e1, he1⟩ := scanPosting_extend (mp (hidx item i j)) ids
      obtain ⟨e2, he2⟩ := ih (j+1) (scanPosting ids (mp (hidx item i j)))
      exact ⟨e1 ++ e2, by rw [he2, he1, List.append_assoc]⟩

/-- A table scan preserves distinctness of the running id list. -/
theorem scanRows_nodup (hidx : List Nat → Nat → Nat → Nat) (item : List Nat) (i : Nat) :
    ∀ (rows : List (Nat → List Nat)) (j : Nat) (ids : List Nat),
      ids.Nodup → (scanRows hidx item i rows j ids).Nodup := by
  intro rows
  induction rows with
  | nil => intro j ids h; simpa [scanRows] using h
  | cons mp rest ih =>
      intro j ids h
      simp only [scanRows]
      exact ih (j+1) _ (scanPosting_nodup _ _ h)

/-- Invariant of the descending table loop of `query_candidates`: the result
extends the accumulator by one block of newly-seen ids per visited table, the
recorded counts are exactly the block lengths, distinctness is preserved, and
at most `i` tables are visited. -/
theorem queryGo_spec (hidx : List Nat → Nat → Nat → Nat) (item : List Nat) (maxcand : Nat)
    (maps : List (List (Nat → List Nat))) :
    ∀ (i : Nat) (acc : List Nat), acc.Nodup →
      ∃ blocks : List (List Nat),
        (queryGo hidx item maxcand maps i acc).1 = acc ++ blocks.flatten
        ∧ (queryGo hidx item maxcand maps i acc).2 = blocks.map List.length
        ∧ (queryGo hidx item maxcand maps i acc).1.Nodup
        ∧ blocks.length ≤ i := by
  intro i
  induction i with
  | zero =>
      intro acc h
      exact ⟨[], by simp [queryGo], by simp [queryGo], by simpa [queryGo] using h, by simp⟩
  | succ i ih =>
      intro acc h
      obtain ⟨e, he⟩ := scanRows_extend hidx item i (maps.getD i []) 0 acc
      have hnd := scanRows_nodup hidx item i (maps.getD i []) 0 acc h
      have hcnt : (scanRows hidx item i (maps.getD i []) 0 acc).length - acc.length = e.length := by
        rw [he, List.length_append]
        omega
      simp only [queryGo]
      by_cases hc : maxcand ≤ (scanRows hidx item i (maps.getD i []) 0 acc).length
      · rw [if_pos hc]
        refine ⟨[e], ?_, ?_, hnd, by simp⟩
        · simpa using he
        · rw [hcnt, List.map_cons, List.map_nil]
      · rw [if_neg hc]
        obtain ⟨blocks, h1, h2, h3, h4⟩ := ih (scanRows hidx item i (maps.getD i []) 0 acc) hnd
        refine ⟨e :: blocks, ?_, ?_, h3, by simpa using h4⟩
        · rw [h1, he, List.flatten_cons, List.append_assoc]
        · rw [hcnt, h2, List.map_cons]

/-- C8: for every index, sketch, candidate cap and starting table,
`query_candidates` returns duplicate-free ids partitioned into one block of
newly-seen ids per visited table (at most `starting` of them, walked from the
highest visited table downward by construction), with `per_table_counts`
exactly the block lengths — so the counts sum to the number of returned ids. -/
theorem thm_C8_query :
    ∀ (hidx : List Nat → Nat → Nat → Nat) (I : SSI) (item : List Nat) (maxcand starting : Nat),
    (query_candidates hidx I item maxcand starting).1.Nodup
    ∧ (query_candidates hidx I item maxcand starting).2.sum
        = (query_candidates hidx I item maxcand starting).1.length
    ∧ (query_candidates hidx I item maxcand starting).2.length ≤ starting
    ∧ ∃ blocks : List (List Nat),
        (query_candidates hidx I item maxcand starting).1 = blocks.flatten
        ∧ (query_candidates hidx I item maxcand starting).2 = blocks.map List.length := by
  intro hidx I item maxcand starting
  obtain ⟨blocks, h1, h2, h3, h4⟩ :=
    queryGo_spec hidx item maxcand I.packed_maps_ starting [] List.nodup_nil
  unfold query_candidates
  simp only [List.nil_append] at h1
  refine ⟨h3, ?_, ?_, blocks, h1, h2⟩
  · rw [h1, h2, List.length_flatten]
  · rw [h2, List.length_map]
    exact h4
